import Mathlib

/-!
Shallow embedding of the polynomial container in
src/Data-Structure/LinkList/polynomial/polynomial.h (namespace Poly).

Coefficients are C++ doubles; they are modelled as rationals, with the
implicit double-to-int conversion at the int-typed setter modelled by an
explicit truncation toward zero.  Exponents are C++ ints, modelled as
integers.  The fallible term addition (which throws std::invalid_argument
on unequal exponents) is modelled with Option.
-/

namespace Poly

/-- C-style truncating conversion of a rational to a signed integer
(fractional part discarded, rounding toward zero), as performed by the
implicit double-to-int conversion at `setCoef(int c)`.  `Int.div` is
T-division, which truncates toward zero. -/
def truncQ (q : ℚ) : ℤ :=
  q.num.tdiv (q.den : ℤ)

/-- `class Term`: a coefficient (double) and an exponent (int). -/
structure Term where
  coef : ℚ
  exp : ℤ
  deriving DecidableEq, Repr

/-- `void setCoef(int c) noexcept { coef = c; }` — the parameter type is
int, so the argument is converted (truncated) before being stored. -/
def Term.setCoef (t : Term) (c : ℚ) : Term :=
  { t with coef := ((truncQ c : ℤ) : ℚ) }

/-- The squaring loop of `Term::cal`: `for (int i = 0; i < exp; ++i) x *= x;`
squares the accumulator once per iteration. -/
def sqLoop (x : ℚ) : ℕ → ℚ
  | 0 => x
  | n + 1 => sqLoop (x * x) n

/-- `constexpr double cal(double x) const noexcept`: runs the squaring loop
`exp` times (zero times when `exp <= 0`, since the loop guard is `i < exp`)
and returns `coef * x`. -/
def Term.cal (t : Term) (x : ℚ) : ℚ :=
  t.coef * sqLoop x t.exp.toNat

/-- `constexpr Term operator+(const Term &t) const`: throws
(`none`) when the exponents differ; returns the canonical zero term when
the summed coefficient is zero; otherwise the summed term. -/
def Term.addE (a b : Term) : Option Term :=
  if a.exp ≠ b.exp then none
  else if a.coef + b.coef = 0 then some ⟨0, 0⟩
  else some ⟨a.coef + b.coef, a.exp⟩

/-- The total projection of `Term.addE`, applicable once the exponents are
known to agree (the shape actually reached from the polynomial merge). -/
def Term.addT (a b : Term) : Term :=
  if a.coef + b.coef = 0 then ⟨0, 0⟩
  else ⟨a.coef + b.coef, a.exp⟩

/-- The merge loop body of `Polynomial::operator+`: walk both term lists,
emit the smaller exponent first, on a tie push the combined term only when
the coefficient sum is nonzero, then flush the leftover list verbatim. -/
def merge : List Term → List Term → List Term
  | [], qs => qs
  | p :: ps, [] => p :: ps
  | p :: ps, q :: qs =>
    if p.exp < q.exp then p :: merge ps (q :: qs)
    else if q.exp < p.exp then q :: merge (p :: ps) qs
    else if p.coef + q.coef ≠ 0 then Term.addT p q :: merge ps qs
    else merge ps qs
  termination_by l₁ l₂ => l₁.length + l₂.length

/-- Option-valued version of the merge loop: the tie step goes through the
fallible `Term.addE`, exactly as the source pushes `*thisIt + *otherIt`,
which can throw.  `none` models the exception escaping `operator+`. -/
def mergeT : List Term → List Term → Option (List Term)
  | [], qs => some qs
  | p :: ps, [] => some (p :: ps)
  | p :: ps, q :: qs =>
    if p.exp < q.exp then (mergeT ps (q :: qs)).map (fun r => p :: r)
    else if q.exp < p.exp then (mergeT (p :: ps) qs).map (fun r => q :: r)
    else if p.coef + q.coef ≠ 0 then
      match Term.addE p q with
      | none => none
      | some s => (mergeT ps qs).map (fun r => s :: r)
    else mergeT ps qs
  termination_by l₁ l₂ => l₁.length + l₂.length

/-- The loop of `Polynomial::operator-` that rewrites its by-value copy:
`for (auto &t : other.poly) t.setCoef(-t.getCoef());` — every coefficient
is negated through the int-typed setter. -/
def negList (l : List Term) : List Term :=
  l.map fun t => t.setCoef (-t.coef)

/-- `class Polynomial`: wraps the term vector member `poly`. -/
structure Polynomial where
  poly : List Term
  deriving DecidableEq, Repr

/-- `Polynomial operator+(const Polynomial &other) const`, with the
unreachable throw of the tie step projected away (see `mergeT_eq`). -/
def Polynomial.add (a b : Polynomial) : Polynomial :=
  ⟨merge a.poly b.poly⟩

/-- `Polynomial operator-(Polynomial other) const`: negates every
coefficient of the by-value copy through `setCoef`, then delegates to
`operator+`. -/
def Polynomial.sub (a b : Polynomial) : Polynomial :=
  a.add ⟨negList b.poly⟩

/-- `operator+` with the throwing term addition kept fallible. -/
def Polynomial.addE (a b : Polynomial) : Option Polynomial :=
  (mergeT a.poly b.poly).map Polynomial.mk

/-- `operator-` with the throwing term addition kept fallible. -/
def Polynomial.subE (a b : Polynomial) : Option Polynomial :=
  a.addE ⟨negList b.poly⟩

/-- The scan of `void insert(const Term &t)`: on an equal exponent the slot
coefficient is rewritten through the int-typed setter and the scan stops;
on the first strictly greater exponent `t` is placed before it; when the
loop runs off the end nothing is appended. -/
def insertT (l : List Term) (t : Term) : List Term :=
  match l with
  | [] => []
  | s :: rest =>
    if s.exp = t.exp then s.setCoef (s.coef + t.coef) :: rest
    else if s.exp > t.exp then t :: s :: rest
    else s :: insertT rest t

/-- `void insert(const Term &t)` at the polynomial level. -/
def Polynomial.insert (a : Polynomial) (t : Term) : Polynomial :=
  ⟨insertT a.poly t⟩

/-- `double cal(double x) const noexcept`: accumulates `t.cal x` over the
term list. -/
def Polynomial.cal (a : Polynomial) (x : ℚ) : ℚ :=
  a.poly.foldl (fun r t => r + t.cal x) 0

/-- Call-level state of `operator-(Polynomial other)`: the caller keeps the
storages of both operand polynomials, and the callee receives the right
operand by value in the local `other`. -/
structure SubCall where
  thisStore : List Term
  argStore : List Term
  other : List Term
  deriving DecidableEq, Repr

/-- Entering `operator-`: pass-by-value copies the argument into `other`;
the caller storages are untouched. -/
def SubCall.start (a b : Polynomial) : SubCall :=
  ⟨a.poly, b.poly, b.poly⟩

/-- The negation loop runs on the local copy `other` only. -/
def SubCall.negate (σ : SubCall) : SubCall :=
  { σ with other := negList σ.other }

/-- The delegated `*this + other` reads `this` and the mutated copy. -/
def SubCall.result (σ : SubCall) : Polynomial :=
  ⟨merge σ.thisStore σ.other⟩

/-- The whole call `a - b`: returned value plus the final call state. -/
def subCall (a b : Polynomial) : Polynomial × SubCall :=
  ((SubCall.start a b).negate.result, (SubCall.start a b).negate)

/-- Call-level state of `operator+(const Polynomial &other) const`: both
operands are only read through const iterators. -/
structure AddCall where
  thisStore : List Term
  argStore : List Term
  deriving DecidableEq, Repr

/-- The whole call `a + b`: returned value plus the final call state. -/
def addCall (a b : Polynomial) : Polynomial × AddCall :=
  (⟨merge a.poly b.poly⟩, ⟨a.poly, b.poly⟩)

/-- Model of `std::array<Term, SIZE>`, the backing store of the fixed-size
variant `Polynomial_C<SIZE>`: a term list whose length is fixed at the
type, so the length certificate travels with the value. -/
structure ArrayC (n : ℕ) where
  val : List Term
  hlen : val.length = n

/-- Sanity: the merge on the scenario from the specification. -/
theorem add_scenario :
    merge [⟨2, 0⟩, ⟨3, 1⟩] [⟨-3, 1⟩, ⟨5, 2⟩] = [⟨2, 0⟩, ⟨5, 2⟩] := by
  norm_num [merge, Term.addT]

theorem merge_nil (l : List Term) : merge l [] = l := by
  cases l <;> simp [merge]

theorem merge_comm (l₁ l₂ : List Term) : merge l₁ l₂ = merge l₂ l₁ := by
  induction l₁, l₂ using merge.induct with
  | case1 qs => simp [merge, merge_nil]
  | case2 p ps => simp [merge, merge_nil]
  | case3 p ps q qs h ih => simp [merge, h, Int.not_lt.mpr (le_of_lt h), ih]
  | case4 p ps q qs h h2 ih => simp [merge, h, h2, ih]
  | case5 p ps q qs h h2 h3 ih =>
      have hexp : p.exp = q.exp := le_antisymm (Int.not_lt.mp h2) (Int.not_lt.mp h)
      simp [merge, h, h2, h3, ih, Term.addT, hexp, add_comm q.coef p.coef,
        show ¬q.coef + p.coef = 0 by rw [add_comm]; exact h3]
  | case6 p ps q qs h h2 h3 ih =>
      have hexp : p.exp = q.exp := le_antisymm (Int.not_lt.mp h2) (Int.not_lt.mp h)
      simp only [ne_eq, not_not] at h3
      simp [merge, h, h2, h3, ih, add_comm q.coef p.coef,
        show q.coef + p.coef = 0 by rw [add_comm]; exact h3]

theorem truncQ_den_one {q : ℚ} (h : q.den = 1) : ((truncQ q : ℤ) : ℚ) = q := by
  have h1 : truncQ q = q.num := by
    rw [truncQ, h, Nat.cast_one, Int.tdiv_one]
  rw [h1]
  conv_rhs => rw [← Rat.num_div_den q]
  rw [h]
  simp

theorem truncQ_intCast (n : ℤ) : truncQ ((n : ℤ) : ℚ) = n := by
  rw [truncQ, Rat.num_intCast, Rat.den_intCast, Nat.cast_one, Int.tdiv_one]

theorem truncQ_nonneg {q : ℚ} (h : 0 ≤ q) : truncQ q = ⌊q⌋ := by
  rw [truncQ, Int.tdiv_eq_ediv (Rat.num_nonneg.mpr h) (Int.ofNat_nonneg q.den),
    Rat.floor_def]

theorem truncQ_neg (q : ℚ) : truncQ (-q) = -truncQ q := by
  rw [truncQ, truncQ, Rat.neg_num, Rat.neg_den, Int.neg_tdiv]

theorem sqLoop_eq (n : ℕ) : ∀ x : ℚ, sqLoop x n = x ^ (2 ^ n) := by
  induction n with
  | zero => intro x; simp [sqLoop]
  | succ n ih =>
      intro x
      rw [sqLoop, ih (x * x), ← pow_two, ← pow_mul, pow_succ, Nat.mul_comm]

theorem merge_exp_mem (l₁ l₂ : List Term) :
    ∀ t ∈ merge l₁ l₂, (∃ s ∈ l₁, s.exp = t.exp) ∨ ∃ s ∈ l₂, s.exp = t.exp := by
  induction l₁, l₂ using merge.induct with
  | case1 qs =>
      intro t ht
      right
      exact ⟨t, by simpa [merge] using ht, rfl⟩
  | case2 p ps =>
      intro t ht
      left
      exact ⟨t, by simpa [merge] using ht, rfl⟩
  | case3 p ps q qs h ih =>
      intro t ht
      rw [show merge (p :: ps) (q :: qs) = p :: merge ps (q :: qs) by
        simp [merge, h]] at ht
      rcases List.mem_cons.mp ht with rfl | ht2
      · exact Or.inl ⟨t, List.mem_cons_self t ps, rfl⟩
      · rcases ih t ht2 with ⟨s, hs, he⟩ | hr
        · exact Or.inl ⟨s, List.mem_cons_of_mem p hs, he⟩
        · exact Or.inr hr
  | case4 p ps q qs h h2 ih =>
      intro t ht
      rw [show merge (p :: ps) (q :: qs) = q :: merge (p :: ps) qs by
        simp [merge, h, h2]] at ht
      rcases List.mem_cons.mp ht with rfl | ht2
      · exact Or.inr ⟨t, List.mem_cons_self t qs, rfl⟩
      · rcases ih t ht2 with hl | ⟨s, hs, he⟩
        · exact Or.inl hl
        · exact Or.inr ⟨s, List.mem_cons_of_mem q hs, he⟩
  | case5 p ps q qs h h2 h3 ih =>
      intro t ht
      rw [show merge (p :: ps) (q :: qs) = Term.addT p q :: merge ps qs by
        simp [merge, h, h2, h3]] at ht
      rcases List.mem_cons.mp ht with rfl | ht2
      · refine Or.inl ⟨p, List.mem_cons_self p ps, ?_⟩
        simp [Term.addT, h3]
      · rcases ih t ht2 with ⟨s, hs, he⟩ | ⟨s, hs, he⟩
        · exact Or.inl ⟨s, List.mem_cons_of_mem p hs, he⟩
        · exact Or.inr ⟨s, List.mem_cons_of_mem q hs, he⟩
  | case6 p ps q qs h h2 h3 ih =>
      intro t ht
      rw [show merge (p :: ps) (q :: qs) = merge ps qs by
        simp only [ne_eq, not_not] at h3
        simp [merge, h, h2, h3]] at ht
      rcases ih t ht with ⟨s, hs, he⟩ | ⟨s, hs, he⟩
      · exact Or.inl ⟨s, List.mem_cons_of_mem p hs, he⟩
      · exact Or.inr ⟨s, List.mem_cons_of_mem q hs, he⟩

theorem merge_exp_lt {b : Term} {l₁ l₂ : List Term}
    (h₁ : ∀ s ∈ l₁, b.exp < s.exp) (h₂ : ∀ s ∈ l₂, b.exp < s.exp) :
    ∀ t ∈ merge l₁ l₂, b.exp < t.exp := by
  intro t ht
  rcases merge_exp_mem l₁ l₂ t ht with ⟨s, hs, he⟩ | ⟨s, hs, he⟩
  · exact he ▸ h₁ s hs
  · exact he ▸ h₂ s hs

theorem merge_sorted (l₁ l₂ : List Term)
    (h₁ : l₁.Pairwise fun a b => a.exp < b.exp)
    (h₂ : l₂.Pairwise fun a b => a.exp < b.exp) :
    (merge l₁ l₂).Pairwise fun a b => a.exp < b.exp := by
  induction l₁, l₂ using merge.induct with
  | case1 qs => simpa [merge] using h₂
  | case2 p ps => simpa [merge] using h₁
  | case3 p ps q qs h ih =>
      rcases List.pairwise_cons.mp h₁ with ⟨hb, hps⟩
      rw [show merge (p :: ps) (q :: qs) = p :: merge ps (q :: qs) by
        simp [merge, h]]
      refine List.pairwise_cons.mpr ⟨merge_exp_lt hb ?_, ih hps h₂⟩
      intro s hs
      rcases List.mem_cons.mp hs with rfl | hs2
      · exact h
      · exact h.trans ((List.pairwise_cons.mp h₂).1 s hs2)
  | case4 p ps q qs h h2 ih =>
      rcases List.pairwise_cons.mp h₂ with ⟨hb, hqs⟩
      rw [show merge (p :: ps) (q :: qs) = q :: merge (p :: ps) qs by
        simp [merge, h, h2]]
      refine List.pairwise_cons.mpr ⟨merge_exp_lt ?_ hb, ih h₁ hqs⟩
      intro s hs
      rcases List.mem_cons.mp hs with rfl | hs2
      · exact h2
      · exact h2.trans ((List.pairwise_cons.mp h₁).1 s hs2)
  | case5 p ps q qs h h2 h3 ih =>
      have hexp : p.exp = q.exp := le_antisymm (Int.not_lt.mp h2) (Int.not_lt.mp h)
      rcases List.pairwise_cons.mp h₁ with ⟨hbp, hps⟩
      rcases List.pairwise_cons.mp h₂ with ⟨hbq, hqs⟩
      rw [show merge (p :: ps) (q :: qs) = Term.addT p q :: merge ps qs by
        simp [merge, h, h2, h3]]
      refine List.pairwise_cons.mpr ⟨?_, ih hps hqs⟩
      have haddexp : (Term.addT p q).exp = p.exp := by simp [Term.addT, h3]
      intro t ht
      rw [haddexp]
      exact merge_exp_lt hbp (fun s hs => hexp ▸ hbq s hs) t ht
  | case6 p ps q qs h h2 h3 ih =>
      rw [show merge (p :: ps) (q :: qs) = merge ps qs by
        simp only [ne_eq, not_not] at h3
        simp [merge, h, h2, h3]]
      exact ih (List.pairwise_cons.mp h₁).2 (List.pairwise_cons.mp h₂).2

theorem merge_coef_ne (l₁ l₂ : List Term)
    (h₁ : ∀ s ∈ l₁, s.coef ≠ 0) (h₂ : ∀ s ∈ l₂, s.coef ≠ 0) :
    ∀ s ∈ merge l₁ l₂, s.coef ≠ 0 := by
  induction l₁, l₂ using merge.induct with
  | case1 qs =>
      intro s hs
      exact h₂ s (by simpa [merge] using hs)
  | case2 p ps =>
      intro s hs
      exact h₁ s (by simpa [merge] using hs)
  | case3 p ps q qs h ih =>
      intro s hs
      rw [show merge (p :: ps) (q :: qs) = p :: merge ps (q :: qs) by
        simp [merge, h]] at hs
      rcases List.mem_cons.mp hs with rfl | hs2
      · exact h₁ s (List.mem_cons_self s ps)
      · exact ih (fun u hu => h₁ u (List.mem_cons_of_mem p hu)) h₂ s hs2
  | case4 p ps q qs h h2 ih =>
      intro s hs
      rw [show merge (p :: ps) (q :: qs) = q :: merge (p :: ps) qs by
        simp [merge, h, h2]] at hs
      rcases List.mem_cons.mp hs with rfl | hs2
      · exact h₂ s (List.mem_cons_self s qs)
      · exact ih h₁ (fun u hu => h₂ u (List.mem_cons_of_mem q hu)) s hs2
  | case5 p ps q qs h h2 h3 ih =>
      intro s hs
      rw [show merge (p :: ps) (q :: qs) = Term.addT p q :: merge ps qs by
        simp [merge, h, h2, h3]] at hs
      rcases List.mem_cons.mp hs with rfl | hs2
      · simp [Term.addT, h3]
      · exact ih (fun u hu => h₁ u (List.mem_cons_of_mem p hu))
          (fun u hu => h₂ u (List.mem_cons_of_mem q hu)) s hs2
  | case6 p ps q qs h h2 h3 ih =>
      intro s hs
      rw [show merge (p :: ps) (q :: qs) = merge ps qs by
        simp only [ne_eq, not_not] at h3
        simp [merge, h, h2, h3]] at hs
      exact ih (fun u hu => h₁ u (List.mem_cons_of_mem p hu))
        (fun u hu => h₂ u (List.mem_cons_of_mem q hu)) s hs

theorem negList_int (l : List Term) (h : ∀ t ∈ l, t.coef.den = 1) :
    negList l = l.map fun t => ⟨-t.coef, t.exp⟩ := by
  induction l with
  | nil => rfl
  | cons a l ih =>
      have ha : ((truncQ (-a.coef) : ℤ) : ℚ) = -a.coef :=
        truncQ_den_one (by rw [Rat.neg_den]; exact h a (List.mem_cons_self a l))
      simp only [negList, List.map_cons] at *
      rw [ih fun t ht => h t (List.mem_cons_of_mem a ht)]
      simp [Term.setCoef, ha]

theorem merge_self_neg (l : List Term) :
    merge l (l.map fun t => (⟨-t.coef, t.exp⟩ : Term)) = [] := by
  induction l with
  | nil => simp [merge]
  | cons a l ih => simp [merge, ih]

theorem mergeT_eq (l₁ l₂ : List Term) : mergeT l₁ l₂ = some (merge l₁ l₂) := by
  induction l₁, l₂ using merge.induct with
  | case1 qs => simp [merge, mergeT]
  | case2 p ps => simp [merge, mergeT]
  | case3 p ps q qs h ih => simp [merge, mergeT, h, ih]
  | case4 p ps q qs h h2 ih => simp [merge, mergeT, h, h2, ih]
  | case5 p ps q qs h h2 h3 ih =>
      have hexp : p.exp = q.exp := le_antisymm (Int.not_lt.mp h2) (Int.not_lt.mp h)
      simp [merge, mergeT, h, h2, h3, ih, Term.addE, Term.addT, hexp]
  | case6 p ps q qs h h2 h3 ih =>
      simp only [ne_eq, not_not] at h3
      simp [merge, mergeT, h, h2, h3, ih]

/-- Claim C1: for a term with coefficient `c` and non-negative integer
exponent `e`, `cal x` returns `c * x ^ (2 ^ e)` — the loop squares `x`
once per iteration for `e` iterations — so `e = 0` yields `c * x`, and
`Term(3, 2)` evaluated at `x = 2` yields `48`, not the true-power value
`12`. -/
theorem c1_term_cal_repeated_squaring :
    (∀ (c x : ℚ) (e : ℕ), Term.cal ⟨c, (e : ℤ)⟩ x = c * x ^ 2 ^ e) ∧
      Term.cal ⟨3, 2⟩ 2 = 48 ∧ Term.cal ⟨3, 2⟩ 2 ≠ 3 * 2 ^ 2 := by
  have h48 : Term.cal ⟨3, 2⟩ 2 = 48 := by
    rw [Term.cal, show ((⟨3, 2⟩ : Term).exp).toNat = 2 from rfl, sqLoop_eq]
    norm_num
  refine ⟨?_, h48, by rw [h48]; norm_num⟩
  intro c x e
  simp [Term.cal, sqLoop_eq, Int.toNat_natCast]

/-- Claim C2 fails as stated: sums of polynomials built by constructors
that keep zero coefficients can carry a zero-coefficient term — here
`{(0, 5)} + {}` flushes the zero term verbatim. -/
theorem c2_add_zero_coef_counterexample :
    (Polynomial.add ⟨[⟨0, 5⟩]⟩ ⟨[]⟩).poly = [⟨0, 5⟩] ∧
      ¬ ∀ s ∈ (Polynomial.add ⟨[⟨0, 5⟩]⟩ ⟨[]⟩).poly, s.coef ≠ 0 := by
  have h : (Polynomial.add ⟨[⟨0, 5⟩]⟩ ⟨[]⟩).poly = [⟨0, 5⟩] := merge_nil _
  refine ⟨h, fun hall => ?_⟩
  have hmem : (⟨0, 5⟩ : Term) ∈ (Polynomial.add ⟨[⟨0, 5⟩]⟩ ⟨[]⟩).poly := by
    rw [h]
    exact List.mem_cons_self _ _
  exact hall ⟨0, 5⟩ hmem rfl

/-- Claim C2 (amended): when each operand term list is sorted strictly
ascending by exponent and free of zero coefficients, `P + Q` is sorted
strictly ascending by exponent — hence has at most one term per exponent —
and contains no zero-coefficient term. -/
theorem c2_add_canonical_of_canonical (P Q : Polynomial)
    (hPs : P.poly.Pairwise fun a b => a.exp < b.exp)
    (hQs : Q.poly.Pairwise fun a b => a.exp < b.exp)
    (hP0 : ∀ s ∈ P.poly, s.coef ≠ 0) (hQ0 : ∀ s ∈ Q.poly, s.coef ≠ 0) :
    ((P.add Q).poly.Pairwise fun a b => a.exp < b.exp) ∧
      ∀ s ∈ (P.add Q).poly, s.coef ≠ 0 :=
  ⟨merge_sorted _ _ hPs hQs, merge_coef_ne _ _ hP0 hQ0⟩

/-- Witness for C2 at the scenario polynomials of the specification. -/
theorem c2_add_canonical_witness :
    ((Polynomial.add ⟨[⟨2, 0⟩, ⟨3, 1⟩]⟩ ⟨[⟨-3, 1⟩, ⟨5, 2⟩]⟩).poly.Pairwise
      fun a b => a.exp < b.exp) ∧
      ∀ s ∈ (Polynomial.add ⟨[⟨2, 0⟩, ⟨3, 1⟩]⟩ ⟨[⟨-3, 1⟩, ⟨5, 2⟩]⟩).poly,
        s.coef ≠ 0 :=
  c2_add_canonical_of_canonical ⟨[⟨2, 0⟩, ⟨3, 1⟩]⟩ ⟨[⟨-3, 1⟩, ⟨5, 2⟩]⟩
    (by decide) (by decide) (by decide) (by decide)

/-- Claim C3 fails as stated: the negation inside `operator-` goes through
the int-typed `setCoef`, so a fractional coefficient `3/2` is negated to
`-1`, not to `-3/2`. -/
theorem c3_sub_exact_negation_counterexample :
    Polynomial.sub ⟨[]⟩ ⟨[⟨3 / 2, 0⟩]⟩ ≠ Polynomial.add ⟨[]⟩ ⟨[⟨-(3 / 2), 0⟩]⟩ := by
  have htr : truncQ (-(3 / 2 : ℚ)) = -1 := by
    rw [truncQ_neg, truncQ_nonneg (by norm_num)]
    norm_num
  have h0 : negList [⟨3 / 2, 0⟩] = [⟨-1, 0⟩] := by
    simp [negList, Term.setCoef, htr]
  show Polynomial.add ⟨[]⟩ ⟨negList [⟨3 / 2, 0⟩]⟩ ≠ _
  rw [h0]
  show Polynomial.mk (merge [] [⟨-1, 0⟩]) ≠ Polynomial.mk (merge [] [⟨-(3 / 2), 0⟩])
  rw [show merge [] [(⟨-1, 0⟩ : Term)] = [⟨-1, 0⟩] from by simp [merge],
    show merge [] [(⟨-(3 / 2), 0⟩ : Term)] = [⟨-(3 / 2), 0⟩] from by simp [merge]]
  norm_num [Polynomial.mk.injEq, Term.mk.injEq]

/-- Claim C3 (amended): `P - Q` equals `P + Q2` where `Q2` replaces every
coefficient `c` of `Q` by the truncation of `-c` to an int; when every
coefficient of `Q` is an integer this is the exact negation, so there
`P - Q = P + (-Q)` holds as claimed. -/
theorem c3_sub_eq_add_neg_of_int (P Q : Polynomial)
    (h : ∀ t ∈ Q.poly, t.coef.den = 1) :
    P.sub Q = P.add ⟨Q.poly.map fun t => ⟨-t.coef, t.exp⟩⟩ := by
  show Polynomial.add P ⟨negList Q.poly⟩ = _
  rw [negList_int Q.poly h]

/-- Witness for C3 at integer-coefficient operands. -/
theorem c3_sub_eq_add_neg_witness :
    Polynomial.sub ⟨[⟨1, 0⟩]⟩ ⟨[⟨2, 1⟩]⟩ = Polynomial.add ⟨[⟨1, 0⟩]⟩ ⟨[⟨-2, 1⟩]⟩ := by
  have hmap : ([(⟨2, 1⟩ : Term)].map fun t => (⟨-t.coef, t.exp⟩ : Term)) = [⟨-2, 1⟩] := by
    decide
  have h := c3_sub_eq_add_neg_of_int ⟨[⟨1, 0⟩]⟩ ⟨[⟨2, 1⟩]⟩ (by decide)
  rw [h, hmap]

/-- Claim C4: `setCoef` stores its argument truncated to a signed integer
(the parameter type is int), and consequently the negation loop used by
`operator-` stores `trunc (-c)` for each coefficient `c`; `trunc (-(3/2))`
is `-1`, which differs from `-(3/2)`. -/
theorem c4_setCoef_truncates :
    (∀ (t : Term) (v : ℚ), t.setCoef v = ⟨((truncQ v : ℤ) : ℚ), t.exp⟩) ∧
      (∀ l : List Term, negList l = l.map fun t => ⟨((truncQ (-t.coef) : ℤ) : ℚ), t.exp⟩) ∧
      truncQ (-(3 / 2)) = -1 ∧ ((-1 : ℤ) : ℚ) ≠ -(3 / 2) :=
  ⟨fun _ _ => rfl, fun _ => rfl,
    by rw [truncQ_neg, truncQ_nonneg (by norm_num)]; norm_num,
    by norm_num⟩

/-- Claim C5 fails as stated: `P + (P - P)` returns `P` itself, not the
zero polynomial, already for `P = {(1, 5)}`. -/
theorem c5_add_sub_self_counterexample :
    Polynomial.add ⟨[⟨1, 5⟩]⟩ (Polynomial.sub ⟨[⟨1, 5⟩]⟩ ⟨[⟨1, 5⟩]⟩) ≠ ⟨[]⟩ := by
  have h0 : negList [⟨1, 5⟩] = [⟨-1, 5⟩] := by decide
  have h1 : Polynomial.sub ⟨[⟨1, 5⟩]⟩ ⟨[⟨1, 5⟩]⟩ = ⟨[]⟩ := by
    show Polynomial.mk (merge [⟨1, 5⟩] (negList [⟨1, 5⟩])) = _
    rw [h0]
    norm_num [merge]
  rw [h1]
  show Polynomial.mk (merge [⟨1, 5⟩] []) ≠ _
  rw [merge_nil]
  decide

/-- Claim C5 (amended): for a polynomial whose coefficients are all
integers, `P - P` is the zero polynomial (empty sequence), and therefore
`P + (P - P)` returns `P` itself — the zero polynomial only when `P` is
empty. -/
theorem c5_sub_self_zero_of_int (P : Polynomial)
    (h : ∀ t ∈ P.poly, t.coef.den = 1) :
    P.sub P = ⟨[]⟩ ∧ P.add (P.sub P) = P := by
  have hs : P.sub P = ⟨[]⟩ := by
    show Polynomial.add P ⟨negList P.poly⟩ = ⟨[]⟩
    rw [negList_int P.poly h]
    show Polynomial.mk (merge P.poly _) = _
    rw [merge_self_neg]
  refine ⟨hs, ?_⟩
  rw [hs]
  show Polynomial.mk (merge P.poly []) = P
  rw [merge_nil]

/-- Witness for C5 at the specification scenario `P = {(1, 5)}`. -/
theorem c5_sub_self_zero_witness :
    Polynomial.sub ⟨[⟨1, 5⟩]⟩ ⟨[⟨1, 5⟩]⟩ = ⟨[]⟩ ∧
      Polynomial.add ⟨[⟨1, 5⟩]⟩ (Polynomial.sub ⟨[⟨1, 5⟩]⟩ ⟨[⟨1, 5⟩]⟩) = ⟨[⟨1, 5⟩]⟩ :=
  c5_sub_self_zero_of_int ⟨[⟨1, 5⟩]⟩ (by decide)

/-- Claim C6: polynomial addition is commutative — `P + Q` and `Q + P`
produce the same term sequence, for every pair of term lists. -/
theorem c6_add_commutative (P Q : Polynomial) : P.add Q = Q.add P := by
  show Polynomial.mk (merge P.poly Q.poly) = Polynomial.mk (merge Q.poly P.poly)
  rw [merge_comm]

/-- Claim C7 fails as stated on the equal-exponent branch: the in-place
update goes through the int-typed `setCoef`, so inserting `(1/4, 0)` into
`{(1/2, 0)}` stores `trunc (3/4) = 0`, not the incremented coefficient
`3/4`. -/
theorem c7_insert_truncation_counterexample :
    Polynomial.insert ⟨[⟨1 / 2, 0⟩]⟩ ⟨1 / 4, 0⟩ ≠ ⟨[⟨1 / 2 + 1 / 4, 0⟩]⟩ := by
  have htr : truncQ ((3 : ℚ) / 4) = 0 := by
    rw [truncQ_nonneg (by norm_num), Int.floor_eq_iff]
    norm_num
  norm_num [Polynomial.insert, insertT, Term.setCoef, htr, Polynomial.mk.injEq,
    Term.mk.injEq]

/-- Claim C7 (amended): `insert` scans the term list in order; past a
prefix of strictly smaller exponents, a slot of equal exponent is updated
in place to the truncated sum of the two coefficients (kept even when the
sum is zero) and nothing else changes; otherwise the term is placed right
before the first slot of strictly greater exponent; when every existing
exponent is strictly smaller — including the empty polynomial — the list
is left unchanged and the term is silently dropped. -/
theorem c7_insert_cases (t : Term) :
    (∀ (A B : List Term) (s : Term), (∀ a ∈ A, a.exp < t.exp) → s.exp = t.exp →
      Polynomial.insert ⟨A ++ s :: B⟩ t = ⟨A ++ s.setCoef (s.coef + t.coef) :: B⟩) ∧
    (∀ (A B : List Term) (s : Term), (∀ a ∈ A, a.exp < t.exp) → t.exp < s.exp →
      Polynomial.insert ⟨A ++ s :: B⟩ t = ⟨A ++ t :: s :: B⟩) ∧
    (∀ P : Polynomial, (∀ a ∈ P.poly, a.exp < t.exp) → P.insert t = P) := by
  have hstep : ∀ (a : Term) (l : List Term), a.exp < t.exp →
      insertT (a :: l) t = a :: insertT l t := by
    intro a l ha
    simp [insertT, ne_of_lt ha, not_lt.mpr (le_of_lt ha), lt_asymm ha]
  refine ⟨?_, ?_, ?_⟩
  · intro A B s hA hs
    show Polynomial.mk (insertT (A ++ s :: B) t) = _
    congr 1
    induction A with
    | nil => simp [insertT, hs]
    | cons a A ih =>
        rw [List.cons_append, hstep a _ (hA a (List.mem_cons_self a A)),
          ih fun x hx => hA x (List.mem_cons_of_mem a hx)]
        rfl
  · intro A B s hA hs
    show Polynomial.mk (insertT (A ++ s :: B) t) = _
    congr 1
    induction A with
    | nil => simp [insertT, (ne_of_lt hs).symm, hs]
    | cons a A ih =>
        rw [List.cons_append, hstep a _ (hA a (List.mem_cons_self a A)),
          ih fun x hx => hA x (List.mem_cons_of_mem a hx)]
        rfl
  · have drop : ∀ l : List Term, (∀ a ∈ l, a.exp < t.exp) → insertT l t = l := by
      intro l
      induction l with
      | nil => intro _; rfl
      | cons a l ih =>
          intro hl
          rw [hstep a l (hl a (List.mem_cons_self a l)),
            ih fun x hx => hl x (List.mem_cons_of_mem a hx)]
    intro P hP
    show Polynomial.mk (insertT P.poly t) = P
    rw [drop P.poly hP]

/-- Witness for C7: the three insert branches at concrete inputs. -/
theorem c7_insert_cases_witness :
    Polynomial.insert ⟨[⟨1, 0⟩, ⟨2, 2⟩]⟩ ⟨5, 2⟩ = ⟨[⟨1, 0⟩, ⟨7, 2⟩]⟩ ∧
      Polynomial.insert ⟨[⟨1, 0⟩, ⟨2, 3⟩]⟩ ⟨5, 2⟩ = ⟨[⟨1, 0⟩, ⟨5, 2⟩, ⟨2, 3⟩]⟩ ∧
      Polynomial.insert ⟨[⟨1, 0⟩]⟩ ⟨5, 2⟩ = ⟨[⟨1, 0⟩]⟩ := by
  refine ⟨?_, ?_, ?_⟩
  · have h := (c7_insert_cases ⟨5, 2⟩).1 [⟨1, 0⟩] [] ⟨2, 2⟩ (by decide) (by decide)
    simp only [List.cons_append, List.nil_append] at h
    rw [h]
    have h7 : truncQ (7 : ℚ) = 7 := by
      rw [show (7 : ℚ) = ((7 : ℤ) : ℚ) by norm_num, truncQ_intCast]
    norm_num [Term.setCoef, h7]
  · have h := (c7_insert_cases ⟨5, 2⟩).2.1 [⟨1, 0⟩] [] ⟨2, 3⟩ (by decide) (by decide)
    simp only [List.cons_append, List.nil_append] at h
    exact h
  · exact (c7_insert_cases ⟨5, 2⟩).2.2 ⟨[⟨1, 0⟩]⟩ (by decide)

/-- Claim C8: the polynomial-level add and subtract never reach the throw
of the term-level addition — the fallible variants always return the value
of the total merge. -/
theorem c8_no_invalid_operand (P Q : Polynomial) :
    P.addE Q = some (P.add Q) ∧ P.subE Q = some (P.sub Q) := by
  constructor
  · show (mergeT P.poly Q.poly).map Polynomial.mk = _
    rw [mergeT_eq]
    rfl
  · show (mergeT P.poly (negList Q.poly)).map Polynomial.mk = _
    rw [mergeT_eq]
    rfl

/-- Claim C9: `operator+` and `operator-` return newly built polynomials
and leave both operand storages unchanged; the negation of `operator-`
runs on its by-value copy of the right operand, never on the operand
itself. -/
theorem c9_operands_unchanged (P Q : Polynomial) :
    ((addCall P Q).2.thisStore = P.poly ∧ (addCall P Q).2.argStore = Q.poly ∧
      (addCall P Q).1 = P.add Q) ∧
    ((subCall P Q).2.thisStore = P.poly ∧ (subCall P Q).2.argStore = Q.poly ∧
      (subCall P Q).2.other = negList Q.poly ∧ (subCall P Q).1 = P.sub Q) :=
  ⟨⟨rfl, rfl, rfl⟩, ⟨rfl, rfl, rfl, rfl⟩⟩

/-- Claim C10: the merge body of the fixed-size variant needs a
sequence-style append (`push_back`) on the fixed-capacity backing array,
and no such operation can exist on a store of fixed length: any candidate
violates the append contract on some input, because appending changes the
length. -/
theorem c10_fixed_array_no_push_back (n : ℕ)
    (pushBack : ArrayC n → Term → ArrayC n) :
    ∃ (a : ArrayC n) (t : Term), (pushBack a t).val ≠ a.val ++ [t] := by
  have key : ∀ (a : ArrayC n) (t : Term), (pushBack a t).val ≠ a.val ++ [t] := by
    intro a t h
    have h1 := congrArg List.length h
    rw [(pushBack a t).hlen, List.length_append, a.hlen] at h1
    simp at h1
  exact ⟨⟨List.replicate n ⟨0, 0⟩, by simp⟩, ⟨0, 0⟩, key _ _⟩

end Poly
